import Mathlib

/-!
# AP_DCC_Button: the debounced button reader

A shallow embedding of `src/AP_DCC_Button.cpp` (class `DCC_Button`).

* `unsigned long` values are natural numbers; `w` is the bit width of
  `unsigned long`, and the only arithmetic the class does on them, the
  subtraction of two time stamps, is taken modulo `2 ^ w` (`usub`).
* The two hardware calls are inputs of the model: `millis()` is the argument
  `now`, the level returned by `digitalRead(m_pin)` and converted to `bool`
  is the argument `raw`.  `pinMode` only configures the hardware and is
  recorded by `attachPinMode`.
-/

namespace DCC_Button

/-- Subtraction of two `unsigned long` values of width `w`: the difference
modulo `2 ^ w`. -/
def usub (w a b : Nat) : Nat :=
  (a + (2 ^ w - b % 2 ^ w)) % 2 ^ w

/-- The member variables of a `DCC_Button` object. -/
structure Button where
  m_pin : Nat
  m_dbTime : Nat
  m_puEnable : Bool
  m_invert : Bool
  m_state : Bool
  m_lastState : Bool
  m_changed : Bool
  m_time : Nat
  m_lastChange : Nat
deriving DecidableEq, Repr

/-- The two input modes `attach` can hand to `pinMode`. -/
inductive PinMode where
  | INPUT
  | INPUT_PULLUP
deriving DecidableEq, Repr

/-- The mode argument of the `pinMode` call in `attach`:
`m_puEnable ? INPUT_PULLUP : INPUT`. -/
def attachPinMode (puEnable : Bool) : PinMode :=
  if puEnable then PinMode.INPUT_PULLUP else PinMode.INPUT

/-- The body of `DCC_Button::attach`, run on the object `s`; `raw` is the level
`digitalRead(m_pin)` returns and `now` the value `millis()` returns. -/
def attachOn (s : Button) (pin dbTime : Nat) (puEnable invert : Bool)
    (raw : Bool) (now : Nat) : Button :=
  let s := { s with m_pin := pin }
  let s := { s with m_dbTime := dbTime }
  let s := { s with m_puEnable := puEnable }
  let s := { s with m_invert := invert }
  let s := { s with m_state := raw }
  let s := if s.m_invert then { s with m_state := !s.m_state } else s
  let s := { s with m_time := now }
  let s := { s with m_lastState := s.m_state }
  let s := { s with m_changed := false }
  { s with m_lastChange := s.m_time }

/-- A `DCC_Button` object before `attach`; `attach` assigns every member, so
the values chosen here are never observed. -/
def fresh : Button :=
  { m_pin := 0, m_dbTime := 0, m_puEnable := false, m_invert := false,
    m_state := false, m_lastState := false, m_changed := false,
    m_time := 0, m_lastChange := 0 }

/-- The object after `attach(pin, dbTime, puEnable, invert)`. -/
def attach (pin dbTime : Nat) (puEnable invert : Bool) (raw : Bool) (now : Nat) : Button :=
  attachOn fresh pin dbTime puEnable invert raw now

/-- The function `DCC_Button::read`: the returned value and the object after the
call; `now` is the value of `millis()`, `raw` the level of `digitalRead(m_pin)`. -/
def read (w : Nat) (s : Button) (now : Nat) (raw : Bool) : Bool × Button :=
  let ms := now
  let pinVal := raw
  let pinVal := if s.m_invert then !pinVal else pinVal
  let s :=
    if usub w ms s.m_lastChange < s.m_dbTime then
      { s with m_changed := false }
    else
      let s := { s with m_lastState := s.m_state }
      let s := { s with m_state := pinVal }
      let s := { s with m_changed := (s.m_state != s.m_lastState) }
      if s.m_changed then { s with m_lastChange := ms } else s
  let s := { s with m_time := ms }
  (s.m_state, s)

/-- The function `DCC_Button::isPressed`. -/
def isPressed (s : Button) : Bool := s.m_state

/-- The function `DCC_Button::isReleased`. -/
def isReleased (s : Button) : Bool := !s.m_state

/-- The function `DCC_Button::wasPressed`. -/
def wasPressed (s : Button) : Bool := s.m_state && s.m_changed

/-- The function `DCC_Button::wasReleased`. -/
def wasReleased (s : Button) : Bool := !s.m_state && s.m_changed

/-- The function `DCC_Button::pressedFor`. -/
def pressedFor (w : Nat) (s : Button) (ms : Nat) : Bool :=
  s.m_state && decide (usub w s.m_time s.m_lastChange ≥ ms)

/-- The function `DCC_Button::releasedFor`. -/
def releasedFor (w : Nat) (s : Button) (ms : Nat) : Bool :=
  !s.m_state && decide (usub w s.m_time s.m_lastChange ≥ ms)

/-- The function `DCC_Button::lastChange`. -/
def lastChange (s : Button) : Nat := s.m_lastChange

/-- One poll of the button: the clock value and the raw level it samples. -/
abbrev Sample := Nat × Bool

/-- The object after a sequence of `read()` calls, one per sample. -/
def readAll (w : Nat) (s : Button) : List Sample → Button
  | [] => s
  | p :: ps => readAll w (read w s p.1 p.2).2 ps

/-- The result of every `read()` call of a sequence, in order: the returned
value and the object after that call. -/
def readTrace (w : Nat) (s : Button) : List Sample → List (Bool × Button)
  | [] => []
  | p :: ps => read w s p.1 p.2 :: readTrace w (read w s p.1 p.2).2 ps

/-- The invert-adjusted level of a sample, in the words of the specification:
the raw level XOR the invert flag. -/
def observed (s : Button) (raw : Bool) : Bool := xor raw s.m_invert

/-- What a caller sees of one `read()` call: the returned value, the changed
flag and the state after the call. -/
def report (x : Bool × Button) : Bool × Bool × Bool :=
  (x.1, x.2.m_changed, x.2.m_state)

/-- What the invert-flag comparison looks at after one `read()` call: the
returned value, the state, the changed flag, the last-read time stamp and the
last-change time stamp. -/
def view (x : Bool × Button) : Bool × Bool × Bool × Nat × Nat :=
  (x.1, x.2.m_state, x.2.m_changed, x.2.m_time, x.2.m_lastChange)

/-- The same view with the two logical levels negated. -/
def viewNegated (x : Bool × Button) : Bool × Bool × Bool × Nat × Nat :=
  (!x.1, !x.2.m_state, x.2.m_changed, x.2.m_time, x.2.m_lastChange)

/-- Two objects that differ as an inverted and a plain button on the same pin
do: opposite states, the same window and the same last-change time stamp. -/
def Mirrored (a b : Button) : Prop :=
  a.m_invert = true ∧ b.m_invert = false ∧ a.m_state = (!b.m_state) ∧
  a.m_dbTime = b.m_dbTime ∧ a.m_lastChange = b.m_lastChange

/-- The query `pressedFor(ms)` in the words of the specification:
`current && (lastRead - lastChange) mod 2 ^ w ≥ ms`, the difference taken over
the integers. -/
def pressedFor_spec (w : Nat) (current : Bool) (lastRead lastChange ms : Nat) : Bool :=
  current &&
    decide (((lastRead : Int) - (lastChange : Int)) % ((2 ^ w : Nat) : Int) ≥ (ms : Int))

/-- The query `releasedFor(ms)` in the words of the specification:
`!current && (lastRead - lastChange) mod 2 ^ w ≥ ms`, the difference taken over
the integers. -/
def releasedFor_spec (w : Nat) (current : Bool) (lastRead lastChange ms : Nat) : Bool :=
  !current &&
    decide (((lastRead : Int) - (lastChange : Int)) % ((2 ^ w : Nat) : Int) ≥ (ms : Int))

/-- The value paired with the last `true` flag of a list, or the default `d`
when no flag is `true`. -/
def lastWhere {α : Type} (d : α) : List (α × Bool) → α
  | [] => d
  | x :: xs => lastWhere (if x.2 then x.1 else d) xs

/-- For every `read()` call of a sequence, whether its debounce window had
elapsed at the call: `!(ms - m_lastChange < m_dbTime)` on the object the call
found. -/
def elapsedFlags (w : Nat) (s : Button) : List Sample → List Bool
  | [] => []
  | p :: ps =>
    decide (s.m_dbTime ≤ usub w p.1 s.m_lastChange) ::
      elapsedFlags w (read w s p.1 p.2).2 ps

/-- The changed flag after every `read()` call of a sequence. -/
def changedFlags (w : Nat) (s : Button) (l : List Sample) : List Bool :=
  (readTrace w s l).map (fun x => x.2.m_changed)

/-- The query methods of the class, with their arguments. -/
inductive Query where
  | isPressed
  | isReleased
  | wasPressed
  | wasReleased
  | pressedFor (ms : Nat)
  | releasedFor (ms : Nat)
  | lastChange
deriving DecidableEq, Repr

/-- The value a query method returns: a `bool` or an `unsigned long`. -/
inductive Answer where
  | flag (b : Bool)
  | time (t : Nat)
deriving DecidableEq, Repr

/-- One call of a query method as a method call on the object: the returned
value and the object after the call.  No query method assigns a member, calls
`digitalRead` or calls `millis`, so the object is handed back as it was and
there is no clock or level input. -/
def call (w : Nat) (s : Button) : Query → Answer × Button
  | Query.isPressed => (Answer.flag (isPressed s), s)
  | Query.isReleased => (Answer.flag (isReleased s), s)
  | Query.wasPressed => (Answer.flag (wasPressed s), s)
  | Query.wasReleased => (Answer.flag (wasReleased s), s)
  | Query.pressedFor ms => (Answer.flag (pressedFor w s ms), s)
  | Query.releasedFor ms => (Answer.flag (releasedFor w s ms), s)
  | Query.lastChange => (Answer.time (lastChange s), s)

/-- A sequence of query calls with no `read()` in between: the returned
values in order and the object after the last call. -/
def callAll (w : Nat) (s : Button) : List Query → List Answer × Button
  | [] => ([], s)
  | q :: qs =>
    ((call w s q).1 :: (callAll w (call w s q).2 qs).1, (callAll w (call w s q).2 qs).2)

/-! ## Facts shared by the proofs -/

/-- The unsigned difference between a clock value and the one `d` ticks
earlier is `d` modulo `2 ^ w`, whether or not the counter wrapped. -/
theorem usub_add_mod (w T d : Nat) : usub w ((T + d) % 2 ^ w) T = d % 2 ^ w := by
  have hp : 0 < 2 ^ w := Nat.two_pow_pos w
  unfold usub
  generalize 2 ^ w = M at hp ⊢
  rw [Nat.mod_add_mod]
  have hr : T % M < M := Nat.mod_lt T hp
  have hT : T = M * (T / M) + T % M := (Nat.div_add_mod T M).symm
  have hsum : T + d + (M - T % M) = d + M * (T / M + 1) := by
    rw [Nat.mul_add, Nat.mul_one]
    omega
  rw [hsum, Nat.add_mul_mod_self_left]

theorem usub_add (w T d : Nat) (hd : d < 2 ^ w) : usub w ((T + d) % 2 ^ w) T = d := by
  rw [usub_add_mod, Nat.mod_eq_of_lt hd]

/-- The model's unsigned subtraction is the integer difference modulo
`2 ^ w`. -/
theorem usub_int (w a b : Nat) :
    ((usub w a b : Nat) : Int) = ((a : Int) - (b : Int)) % ((2 ^ w : Nat) : Int) := by
  have hp : 0 < 2 ^ w := Nat.two_pow_pos w
  unfold usub
  generalize 2 ^ w = M at hp ⊢
  have hr : b % M ≤ M := (Nat.mod_lt b hp).le
  rw [Int.natCast_mod, Nat.cast_add, Nat.cast_sub hr, Int.natCast_mod]
  have hsum : (a : Int) + ((M : Int) - (b : Int) % (M : Int))
      = ((a : Int) - (b : Int) % (M : Int)) + (M : Int) := by ring
  rw [hsum, Int.add_emod_self, Int.sub_emod, Int.emod_emod, ← Int.sub_emod]

theorem usub_zero_le (w t : Nat) : usub w t 0 ≤ t := by
  have hp : 0 < 2 ^ w := Nat.two_pow_pos w
  simp only [usub, Nat.zero_mod, Nat.sub_zero, Nat.add_mod_right]
  exact Nat.mod_le t (2 ^ w)

theorem usub_zero_of_lt (w t : Nat) (h : t < 2 ^ w) : usub w t 0 = t := by
  simp only [usub, Nat.zero_mod, Nat.sub_zero, Nat.add_mod_right]
  exact Nat.mod_eq_of_lt h

theorem attach_fields (pin dbTime : Nat) (pu inv raw : Bool) (t : Nat) :
    attach pin dbTime pu inv raw t =
      { m_pin := pin, m_dbTime := dbTime, m_puEnable := pu, m_invert := inv,
        m_state := xor raw inv, m_lastState := xor raw inv, m_changed := false,
        m_time := t, m_lastChange := t } := by
  cases inv <;> cases raw <;> rfl

/-- The result of `read()` inside the debounce window. -/
theorem read_of_lt (w : Nat) (s : Button) (now : Nat) (raw : Bool)
    (h : usub w now s.m_lastChange < s.m_dbTime) :
    read w s now raw = (s.m_state, { s with m_changed := false, m_time := now }) := by
  simp [read, h]

/-- The result of `read()` once the debounce window has elapsed. -/
theorem read_of_le (w : Nat) (s : Button) (now : Nat) (raw : Bool)
    (h : s.m_dbTime ≤ usub w now s.m_lastChange) :
    read w s now raw =
      (xor raw s.m_invert,
        { s with
          m_lastState := s.m_state
          m_state := xor raw s.m_invert
          m_changed := (xor raw s.m_invert != s.m_state)
          m_lastChange := if (xor raw s.m_invert != s.m_state) then now else s.m_lastChange
          m_time := now }) := by
  have hn : ¬ usub w now s.m_lastChange < s.m_dbTime := Nat.not_lt.mpr h
  cases hi : s.m_invert <;> cases hr : raw <;> cases hs : s.m_state <;>
    simp [read, hn, hi, hs]

theorem read_dbTime (w : Nat) (s : Button) (now : Nat) (raw : Bool) :
    (read w s now raw).2.m_dbTime = s.m_dbTime := by
  simp only [read]
  split_ifs <;> rfl

theorem read_invert (w : Nat) (s : Button) (now : Nat) (raw : Bool) :
    (read w s now raw).2.m_invert = s.m_invert := by
  simp only [read]
  split_ifs <;> rfl

theorem read_fst (w : Nat) (s : Button) (now : Nat) (raw : Bool) :
    (read w s now raw).1 = (read w s now raw).2.m_state := rfl

theorem read_quiet (w : Nat) (s : Button) (now : Nat) (raw : Bool)
    (h : (read w s now raw).2.m_changed = false) :
    (read w s now raw).2.m_state = s.m_state ∧
    (read w s now raw).2.m_lastChange = s.m_lastChange := by
  by_cases hw : usub w now s.m_lastChange < s.m_dbTime
  · simp [read, hw]
  · revert h
    cases hi : s.m_invert <;> cases hr : raw <;> cases hs : s.m_state <;>
      simp [read, hw, hi, hs]

theorem read_changed_lastChange (w : Nat) (s : Button) (now : Nat) (raw : Bool)
    (h : (read w s now raw).2.m_changed = true) :
    (read w s now raw).2.m_lastChange = now ∧
    s.m_dbTime ≤ usub w now s.m_lastChange := by
  by_cases hw : usub w now s.m_lastChange < s.m_dbTime
  · simp [read, hw] at h
  · refine ⟨?_, Nat.not_lt.mp hw⟩
    revert h
    cases hi : s.m_invert <;> cases hr : raw <;> cases hs : s.m_state <;>
      simp [read, hw, hi, hs]

theorem readAll_dbTime (w : Nat) (s : Button) (l : List Sample) :
    (readAll w s l).m_dbTime = s.m_dbTime := by
  induction l generalizing s with
  | nil => rfl
  | cons p ps ih => simp only [readAll, ih, read_dbTime]

theorem readAll_invert (w : Nat) (s : Button) (l : List Sample) :
    (readAll w s l).m_invert = s.m_invert := by
  induction l generalizing s with
  | nil => rfl
  | cons p ps ih => simp only [readAll, ih, read_invert]

theorem readAll_append (w : Nat) (s : Button) (l₁ l₂ : List Sample) :
    readAll w s (l₁ ++ l₂) = readAll w (readAll w s l₁) l₂ := by
  induction l₁ generalizing s with
  | nil => rfl
  | cons p ps ih => exact ih (read w s p.1 p.2).2

theorem readTrace_append (w : Nat) (s : Button) (l₁ l₂ : List Sample) :
    readTrace w s (l₁ ++ l₂) = readTrace w s l₁ ++ readTrace w (readAll w s l₁) l₂ := by
  induction l₁ generalizing s with
  | nil => rfl
  | cons p ps ih =>
    show read w s p.1 p.2 :: readTrace w (read w s p.1 p.2).2 (ps ++ l₂) = _
    rw [ih (read w s p.1 p.2).2]
    rfl

/-- Reads that accept no change keep the state and the last-change time
stamp. -/
theorem readAll_quiet (w : Nat) (s : Button) (l : List Sample)
    (h : ∀ x ∈ readTrace w s l, x.2.m_changed = false) :
    (readAll w s l).m_state = s.m_state ∧
    (readAll w s l).m_lastChange = s.m_lastChange := by
  induction l generalizing s with
  | nil => exact ⟨rfl, rfl⟩
  | cons p ps ih =>
    simp only [readTrace, List.mem_cons, forall_eq_or_imp] at h
    have h1 := read_quiet w s p.1 p.2 h.1
    have h2 := ih (read w s p.1 p.2).2 h.2
    simp only [readAll]
    exact ⟨h2.1.trans h1.1, h2.2.trans h1.2⟩

/-- A read whose invert-adjusted sample equals the state reports no change,
in either branch. -/
theorem read_same (w : Nat) (s : Button) (now : Nat) (raw : Bool)
    (h : xor raw s.m_invert = s.m_state) :
    (read w s now raw).2.m_state = s.m_state ∧
    (read w s now raw).2.m_changed = false := by
  by_cases hw : usub w now s.m_lastChange < s.m_dbTime
  · simp [read, hw]
  · revert h
    cases hi : s.m_invert <;> cases hr : raw <;> cases hs : s.m_state <;>
      simp [read, hw, hi, hs]

/-- Reads whose invert-adjusted samples all equal the state report that state
and no change. -/
theorem readTrace_steady (w : Nat) (s : Button) (l : List Sample)
    (h : ∀ p ∈ l, xor p.2 s.m_invert = s.m_state) :
    (readTrace w s l).map report = l.map (fun _ => (s.m_state, false, s.m_state)) := by
  induction l generalizing s with
  | nil => rfl
  | cons p ps ih =>
    simp only [List.mem_cons, forall_eq_or_imp] at h
    have h1 := read_same w s p.1 p.2 h.1
    have h2 := ih (read w s p.1 p.2).2 (by
      intro q hq
      rw [read_invert, h1.1]
      exact h.2 q hq)
    simp only [readTrace, List.map_cons, h2, report, read_fst, h1.1, h1.2]

/-- Reads that all fall inside the debounce window report the old state and no
change, and leave the state and the last-change time stamp as they were. -/
theorem readTrace_inside (w : Nat) (s : Button) (l : List Sample)
    (h : ∀ p ∈ l, usub w p.1 s.m_lastChange < s.m_dbTime) :
    (readTrace w s l).map report = l.map (fun _ => (s.m_state, false, s.m_state)) ∧
    (readAll w s l).m_state = s.m_state ∧
    (readAll w s l).m_lastChange = s.m_lastChange := by
  induction l generalizing s with
  | nil => exact ⟨rfl, rfl, rfl⟩
  | cons p ps ih =>
    simp only [List.mem_cons, forall_eq_or_imp] at h
    have h1 := read_of_lt w s p.1 p.2 h.1
    have h2 := ih (read w s p.1 p.2).2 (by
      intro q hq
      rw [h1]
      exact h.2 q hq)
    rw [h1] at h2
    refine ⟨?_, ?_, ?_⟩
    · simp only [readTrace, List.map_cons, h1, h2.1, report]
    · simp only [readAll, h1, h2.2.1]
    · simp only [readAll, h1, h2.2.2]

/-- One `read()` of the same sample keeps an inverted and a plain button
mirrored, and the two calls differ only in the negated levels. -/
theorem read_mirrored (w : Nat) (a b : Button) (now : Nat) (raw : Bool)
    (h : Mirrored a b) :
    Mirrored (read w a now raw).2 (read w b now raw).2 ∧
    view (read w a now raw) = viewNegated (read w b now raw) := by
  obtain ⟨ha, hb, hst, hdb, hlc⟩ := h
  by_cases hw : usub w now b.m_lastChange < b.m_dbTime
  · have hwa : usub w now a.m_lastChange < a.m_dbTime := by rw [hlc, hdb]; exact hw
    rw [read_of_lt w a now raw hwa, read_of_lt w b now raw hw]
    exact ⟨⟨ha, hb, hst, hdb, hlc⟩, by simp [view, viewNegated, hst, hlc]⟩
  · have hwb : b.m_dbTime ≤ usub w now b.m_lastChange := Nat.not_lt.mp hw
    have hwa : a.m_dbTime ≤ usub w now a.m_lastChange := by rw [hlc, hdb]; exact hwb
    rw [read_of_le w a now raw hwa, read_of_le w b now raw hwb]
    refine ⟨⟨ha, hb, ?_, hdb, ?_⟩, ?_⟩
    · simp [ha, hb]
    · cases hr : raw <;> cases hs : b.m_state <;> simp [ha, hb, hst, hlc, hs]
    · cases hr : raw <;> cases hs : b.m_state <;>
        simp [view, viewNegated, ha, hb, hst, hlc, hs]

theorem readTrace_mirrored (w : Nat) (a b : Button) (l : List Sample)
    (h : Mirrored a b) :
    (readTrace w a l).map view = (readTrace w b l).map viewNegated := by
  induction l generalizing a b with
  | nil => rfl
  | cons p ps ih =>
    have h1 := read_mirrored w a b p.1 p.2 h
    simp only [readTrace, List.map_cons, h1.2, ih _ _ h1.1]

/-- The state and the previous state after one `read()`, by branch. -/
theorem read_states (w : Nat) (s : Button) (now : Nat) (raw : Bool) :
    (read w s now raw).2.m_state
      = (if s.m_dbTime ≤ usub w now s.m_lastChange then xor raw s.m_invert else s.m_state) ∧
    (read w s now raw).2.m_lastState
      = (if s.m_dbTime ≤ usub w now s.m_lastChange then s.m_state else s.m_lastState) := by
  by_cases h : s.m_dbTime ≤ usub w now s.m_lastChange
  · rw [read_of_le w s now raw h]
    simp only [h, if_true, and_self]
  · rw [read_of_lt w s now raw (Nat.not_le.mp h)]
    simp only [h, if_false, and_self]

/-- Reads that all find the debounce window still open keep the state and the
previous state. -/
theorem readAll_inside (w : Nat) (s : Button) (l : List Sample)
    (h : ∀ e ∈ elapsedFlags w s l, e = false) :
    (readAll w s l).m_state = s.m_state ∧
    (readAll w s l).m_lastState = s.m_lastState := by
  induction l generalizing s with
  | nil => exact ⟨rfl, rfl⟩
  | cons p ps ih =>
    simp only [elapsedFlags, List.mem_cons, forall_eq_or_imp, decide_eq_false_iff_not] at h
    have h1 := read_states w s p.1 p.2
    simp only [h.1, if_false] at h1
    have h2 := ih (read w s p.1 p.2).2 h.2
    simp only [readAll]
    exact ⟨h2.1.trans h1.1, h2.2.trans h1.2⟩

/-- The state after a run is the invert-adjusted sample of the last read that
found the window elapsed. -/
theorem readAll_state (w : Nat) (s : Button) (l : List Sample) :
    (readAll w s l).m_state
      = lastWhere s.m_state
          (List.zip (l.map (fun p => xor p.2 s.m_invert)) (elapsedFlags w s l)) := by
  induction l generalizing s with
  | nil => rfl
  | cons p ps ih =>
    simp only [readAll, elapsedFlags, List.map_cons, List.zip_cons_cons, lastWhere]
    rw [ih (read w s p.1 p.2).2, read_invert, (read_states w s p.1 p.2).1]
    simp only [decide_eq_true_eq]
    rfl

/-- The last-change time stamp after one `read()`. -/
theorem read_lastChange (w : Nat) (s : Button) (now : Nat) (raw : Bool) :
    (read w s now raw).2.m_lastChange
      = if (read w s now raw).2.m_changed then now else s.m_lastChange := by
  cases hc : (read w s now raw).2.m_changed
  · simpa using (read_quiet w s now raw hc).2
  · simpa using (read_changed_lastChange w s now raw hc).1

theorem read_time (w : Nat) (s : Button) (now : Nat) (raw : Bool) :
    (read w s now raw).2.m_time = now := by
  simp only [read]

/-- Without a wrap the unsigned difference is the plain difference. -/
theorem usub_of_le (w a b : Nat) (hba : b ≤ a) (ha : a < 2 ^ w) : usub w a b = a - b := by
  unfold usub
  generalize 2 ^ w = M at ha ⊢
  have hb : b % M = b := Nat.mod_eq_of_lt (lt_of_le_of_lt hba ha)
  have hsum : a + (M - b) = (a - b) + M := by omega
  rw [hb, hsum, Nat.add_mod_right]
  exact Nat.mod_eq_of_lt (lt_of_le_of_lt (Nat.sub_le a b) ha)

/-- A later clock value adds the time passed to the unsigned difference,
modulo `2 ^ w`. -/
theorem usub_later (w t now b : Nat) (h : t ≤ now) :
    usub w now b = (usub w t b + (now - t)) % 2 ^ w := by
  unfold usub
  generalize 2 ^ w - b % 2 ^ w = c
  rw [Nat.mod_add_mod]
  congr 1
  omega

/-- With clock values that never decrease and stay below `2 ^ w`, every read of
a run leaves the last-change time stamp at or before the last-read one. -/
theorem readTrace_ordered (w : Nat) (s : Button) (l : List Sample)
    (hs : s.m_lastChange ≤ s.m_time)
    (hchain : List.Chain (fun a b => a ≤ b) s.m_time (l.map Prod.fst))
    (hlt : ∀ p ∈ l, p.1 < 2 ^ w) :
    ∀ x ∈ readTrace w s l,
      x.2.m_lastChange ≤ x.2.m_time ∧
      usub w x.2.m_time x.2.m_lastChange = x.2.m_time - x.2.m_lastChange := by
  induction l generalizing s with
  | nil => intro x hx; simp [readTrace] at hx
  | cons p ps ih =>
    simp only [List.map_cons, List.chain_cons] at hchain
    simp only [List.mem_cons, forall_eq_or_imp] at hlt
    have hle : (read w s p.1 p.2).2.m_lastChange ≤ (read w s p.1 p.2).2.m_time := by
      rw [read_time, read_lastChange]
      split_ifs
      · exact le_refl _
      · exact le_trans hs hchain.1
    intro x hx
    simp only [readTrace, List.mem_cons] at hx
    rcases hx with hx | hx
    · subst hx
      refine ⟨hle, usub_of_le w _ _ hle ?_⟩
      rw [read_time]
      exact hlt.1
    · exact ih (read w s p.1 p.2).2 hle (by rw [read_time]; exact hchain.2) hlt.2 x hx

/-! ## The read step -/

/-- C1. Suppression: when `now - m_lastChange` (unsigned) is below the debounce
window, `read()` keeps the current state, the previous state and the
last-change time stamp, clears the changed flag, stores `now` as the last-read
time stamp and returns the unchanged state, whatever level it samples. -/
theorem read_suppressed (w : Nat) (s : Button) (now : Nat) (raw : Bool)
    (h : usub w now s.m_lastChange < s.m_dbTime) :
    (read w s now raw).2.m_state = s.m_state ∧
    (read w s now raw).2.m_lastState = s.m_lastState ∧
    (read w s now raw).2.m_lastChange = s.m_lastChange ∧
    (read w s now raw).2.m_changed = false ∧
    (read w s now raw).2.m_time = now ∧
    (read w s now raw).1 = s.m_state := by
  rw [read_of_lt w s now raw h]
  exact ⟨rfl, rfl, rfl, rfl, rfl, rfl⟩

/-- The suppression step on a 32-bit clock: 30 ms after the last change a
sample that differs from the state is ignored. -/
theorem read_suppressed_witness :
    usub 32 130 (attach 2 50 true false false 100).m_lastChange
        < (attach 2 50 true false false 100).m_dbTime ∧
    observed (attach 2 50 true false false 100) true
        ≠ (attach 2 50 true false false 100).m_state ∧
    (read 32 (attach 2 50 true false false 100) 130 true).2.m_state = false ∧
    (read 32 (attach 2 50 true false false 100) 130 true).2.m_changed = false ∧
    (read 32 (attach 2 50 true false false 100) 130 true).1 = false :=
  have h := read_suppressed 32 (attach 2 50 true false false 100) 130 true (by decide)
  ⟨by decide, by decide, h.1, h.2.2.2.1, h.2.2.2.2.2⟩

/-- C2. Acceptance: when `now - m_lastChange` (unsigned) has reached the debounce
window, `read()` moves the current state to the previous state, makes the
invert-adjusted sample the current state, sets the changed flag to whether the
two differ, stores `now` as the last-change time stamp exactly when they
differ, stores `now` as the last-read time stamp and returns the
invert-adjusted sample. -/
theorem read_accepted (w : Nat) (s : Button) (now : Nat) (raw : Bool)
    (h : s.m_dbTime ≤ usub w now s.m_lastChange) :
    (read w s now raw).2.m_lastState = s.m_state ∧
    (read w s now raw).2.m_state = observed s raw ∧
    (read w s now raw).2.m_changed = (observed s raw != s.m_state) ∧
    (read w s now raw).2.m_lastChange
        = (if (read w s now raw).2.m_changed then now else s.m_lastChange) ∧
    (read w s now raw).2.m_time = now ∧
    (read w s now raw).1 = observed s raw := by
  rw [read_of_le w s now raw h]
  exact ⟨rfl, rfl, rfl, rfl, rfl, rfl⟩

/-- The acceptance step on a 32-bit clock: 50 ms after the last change, with a
window of 50 ms, a differing sample is accepted. -/
theorem read_accepted_witness :
    (attach 2 50 true false false 100).m_dbTime
        ≤ usub 32 150 (attach 2 50 true false false 100).m_lastChange ∧
    (read 32 (attach 2 50 true false false 100) 150 true).2.m_state = true ∧
    (read 32 (attach 2 50 true false false 100) 150 true).2.m_changed = true ∧
    (read 32 (attach 2 50 true false false 100) 150 true).2.m_lastChange = 150 :=
  have h := read_accepted 32 (attach 2 50 true false false 100) 150 true (by decide)
  ⟨by decide, h.2.1.trans (by decide), h.2.2.1.trans (by decide),
    h.2.2.2.1.trans (by decide)⟩

/-- C3. After any `read()` the changed flag is set exactly when the debounce
window had elapsed since the last accepted change and the invert-adjusted
sample differed from the state held before the call; `wasPressed()` holds
exactly after a `read()` that accepted a change to pressed, `wasReleased()`
exactly after one that accepted a change to released, and one of them holds
exactly when the changed flag is set, so both are false after a `read()` that
accepted no change. -/
theorem read_changed_iff (w : Nat) (s : Button) (now : Nat) (raw : Bool) :
    ((read w s now raw).2.m_changed = true ↔
      (s.m_dbTime ≤ usub w now s.m_lastChange ∧ observed s raw ≠ s.m_state)) ∧
    (wasPressed (read w s now raw).2 = true ↔
      (s.m_dbTime ≤ usub w now s.m_lastChange ∧ observed s raw = true ∧
        s.m_state = false)) ∧
    (wasReleased (read w s now raw).2 = true ↔
      (s.m_dbTime ≤ usub w now s.m_lastChange ∧ observed s raw = false ∧
        s.m_state = true)) ∧
    (wasPressed (read w s now raw).2 || wasReleased (read w s now raw).2)
      = (read w s now raw).2.m_changed := by
  by_cases h : usub w now s.m_lastChange < s.m_dbTime
  · have hn : ¬ s.m_dbTime ≤ usub w now s.m_lastChange := Nat.not_le.mpr h
    simp [read, wasPressed, wasReleased, h, hn]
  · have hn : s.m_dbTime ≤ usub w now s.m_lastChange := Nat.not_lt.mp h
    cases hi : s.m_invert <;> cases hr : raw <;> cases hs : s.m_state <;>
      simp [read, wasPressed, wasReleased, observed, h, hn, hi, hs]

/-- C4. Right after `attach`, on any object, `isPressed()` is the sampled level
XOR the invert flag, the previous state equals the current state,
`wasPressed()` and `wasReleased()` are false, and the last-read time stamp and
`lastChange()` are the clock value read by `attach`. -/
theorem attach_initial (s0 : Button) (pin dbTime : Nat) (puEnable invert raw : Bool)
    (t : Nat) :
    isPressed (attachOn s0 pin dbTime puEnable invert raw t) = xor raw invert ∧
    (attachOn s0 pin dbTime puEnable invert raw t).m_lastState
      = (attachOn s0 pin dbTime puEnable invert raw t).m_state ∧
    wasPressed (attachOn s0 pin dbTime puEnable invert raw t) = false ∧
    wasReleased (attachOn s0 pin dbTime puEnable invert raw t) = false ∧
    (attachOn s0 pin dbTime puEnable invert raw t).m_time = t ∧
    lastChange (attachOn s0 pin dbTime puEnable invert raw t) = t ∧
    attach pin dbTime puEnable invert raw t
      = attachOn s0 pin dbTime puEnable invert raw t := by
  cases invert <;> cases raw <;>
    simp [attach, attachOn, isPressed, wasPressed, wasReleased, lastChange]

/-! ## Runs of `attach` followed by reads -/

/-- C5. Window re-arm: in a run of `attach` followed by reads, once a read at
clock `T` has accepted a change and the reads after it have accepted none, a
read at clock `now` with `(now - T) mod 2 ^ w` below the debounce window `W`
keeps the state and reports no change, whatever level it samples; hence a read
at `now` that does accept the next change has `(now - T) mod 2 ^ w ≥ W`. -/
theorem window_rearm (w pin W : Nat) (pu inv r0 : Bool) (t0 : Nat)
    (pre : List Sample) (T : Nat) (rT : Bool) (mid : List Sample)
    (hacc : (read w (readAll w (attach pin W pu inv r0 t0) pre) T rT).2.m_changed = true)
    (hmid : ∀ x ∈ readTrace w
        (read w (readAll w (attach pin W pu inv r0 t0) pre) T rT).2 mid,
        x.2.m_changed = false)
    (now : Nat) (r : Bool) :
    (usub w now T < W →
      (read w (readAll w (attach pin W pu inv r0 t0) (pre ++ (T, rT) :: mid)) now r).2.m_state
        = (read w (readAll w (attach pin W pu inv r0 t0) pre) T rT).2.m_state ∧
      (read w (readAll w (attach pin W pu inv r0 t0) (pre ++ (T, rT) :: mid)) now r).1
        = (read w (readAll w (attach pin W pu inv r0 t0) pre) T rT).1 ∧
      (read w (readAll w (attach pin W pu inv r0 t0) (pre ++ (T, rT) :: mid)) now r).2.m_changed
        = false) ∧
    ((read w (readAll w (attach pin W pu inv r0 t0) (pre ++ (T, rT) :: mid)) now r).2.m_changed
        = true → W ≤ usub w now T) := by
  have hrun : readAll w (attach pin W pu inv r0 t0) (pre ++ (T, rT) :: mid)
      = readAll w (read w (readAll w (attach pin W pu inv r0 t0) pre) T rT).2 mid := by
    rw [readAll_append]; rfl
  rw [hrun]
  generalize hs1 : readAll w (attach pin W pu inv r0 t0) pre = s1 at hacc hmid ⊢
  have hW1 : s1.m_dbTime = W := by
    rw [← hs1, readAll_dbTime, attach_fields]
  have hq := readAll_quiet w (read w s1 T rT).2 mid hmid
  have hT := (read_changed_lastChange w s1 T rT hacc).1
  have hlc : (readAll w (read w s1 T rT).2 mid).m_lastChange = T := hq.2.trans hT
  have hdb : (readAll w (read w s1 T rT).2 mid).m_dbTime = W := by
    rw [readAll_dbTime, read_dbTime, hW1]
  constructor
  · intro hlt
    have hsup := read_of_lt w (readAll w (read w s1 T rT).2 mid) now r
      (by rw [hlc, hdb]; exact hlt)
    rw [hsup]
    exact ⟨hq.1, hq.1, rfl⟩
  · intro hch
    have h := (read_changed_lastChange w _ now r hch).2
    rw [hlc, hdb] at h
    exact h

/-- A bouncing contact on a 32-bit clock with a 50 ms window: the press
accepted at 60 ms holds against the samples at 70, 80, 100 and 109 ms, and the
release is accepted at 110 ms. -/
theorem window_rearm_witness :
    ((read 32 (readAll 32 (attach 2 50 true false false 0)
        ([(10, true)] ++ (60, true) :: [(70, false), (80, true)])) 100 false).2.m_state = true ∧
     (read 32 (readAll 32 (attach 2 50 true false false 0)
        ([(10, true)] ++ (60, true) :: [(70, false), (80, true)])) 100 false).2.m_changed
        = false) ∧
    ((read 32 (readAll 32 (attach 2 50 true false false 0)
        ([(10, true)] ++ (60, true) :: [(70, false), (80, true)])) 110 false).2.m_changed
        = true ∧ 50 ≤ usub 32 110 60) :=
  have h1 := window_rearm 32 2 50 true false false 0 [(10, true)] 60 true
    [(70, false), (80, true)] (by decide) (by decide) 100 false
  have h2 := window_rearm 32 2 50 true false false 0 [(10, true)] 60 true
    [(70, false), (80, true)] (by decide) (by decide) 110 false
  ⟨⟨(h1.1 (by decide)).1.trans (by decide), (h1.1 (by decide)).2.2⟩,
    ⟨by decide, h2.2 (by decide)⟩⟩

/-- C6. Debounce suppression with exactly-once reporting: for a button attached
at clock 0 with window `W` and initial level `L = r0 XOR inv`, the reads at
clocks below `W` all report state `L` and no change, whatever they sample; and
when the reads at clocks from `W` on (clock values below `2 ^ w`) all sample
the invert-adjusted level `not L`, the first of them reports a change, no later
one does, and all of them report state `not L`. -/
theorem debounce_once (w pin W : Nat) (pu inv r0 : Bool) (pre post : List Sample)
    (hpre : ∀ p ∈ pre, p.1 < W)
    (hpost : ∀ p ∈ post, W ≤ p.1 ∧ p.1 < 2 ^ w ∧ xor p.2 inv = !(xor r0 inv)) :
    (readTrace w (attach pin W pu inv r0 0) (pre ++ post)).map report
      = pre.map (fun _ => (xor r0 inv, false, xor r0 inv)) ++
        (match post with
         | [] => []
         | _ :: tl => (!(xor r0 inv), true, !(xor r0 inv)) ::
             tl.map (fun _ => (!(xor r0 inv), false, !(xor r0 inv)))) := by
  have hin := readTrace_inside w (attach pin W pu inv r0 0) pre (by
    intro p hp
    rw [attach_fields]
    exact lt_of_le_of_lt (usub_zero_le w p.1) (hpre p hp))
  rw [readTrace_append, List.map_append, hin.1]
  generalize hs1 : readAll w (attach pin W pu inv r0 0) pre = s1 at hin ⊢
  have hst : s1.m_state = xor r0 inv := by rw [hin.2.1, attach_fields]
  have hlc : s1.m_lastChange = 0 := by rw [hin.2.2, attach_fields]
  have hdb : s1.m_dbTime = W := by rw [← hs1, readAll_dbTime, attach_fields]
  have hiv : s1.m_invert = inv := by rw [← hs1, readAll_invert, attach_fields]
  have hL : (attach pin W pu inv r0 0).m_state = xor r0 inv := by rw [attach_fields]
  rw [hL]
  congr 1
  cases post with
  | nil => rfl
  | cons p tl =>
    simp only [List.mem_cons, forall_eq_or_imp] at hpost
    have hacc := read_of_le w s1 p.1 p.2 (by
      rw [hlc, hdb, usub_zero_of_lt w p.1 hpost.1.2.1]
      exact hpost.1.1)
    have hobs : xor p.2 s1.m_invert = !(xor r0 inv) := by
      rw [hiv]; exact hpost.1.2.2
    have hstate : (read w s1 p.1 p.2).2.m_state = !(xor r0 inv) := by
      rw [hacc]; exact hobs
    have hch : (read w s1 p.1 p.2).2.m_changed = true := by
      rw [hacc]
      show (xor p.2 s1.m_invert != s1.m_state) = true
      rw [hobs, hst]; cases xor r0 inv <;> rfl
    have hrest := readTrace_steady w (read w s1 p.1 p.2).2 tl (by
      intro q hq
      rw [read_invert, hiv, hstate]
      exact (hpost.2 q hq).2.2)
    simp only [readTrace, List.map_cons, hrest, report, read_fst, hstate, hch]

/-- The scenario of the specification on a 32-bit clock: window 50 ms, the
button attached released at 0 ms, the raw level flipping at 0, 10 and 20 ms
and then held pressed until 200 ms.  The reads at 5, 15, 25 and 40 ms report
released and no change; of the reads at 50, 120 and 200 ms the first reports
the change to pressed and the others none. -/
theorem debounce_once_witness :
    (∀ p ∈ [((5 : Nat), true), (15, false), (25, true), (40, true)], p.1 < 50) ∧
    (∀ p ∈ [((50 : Nat), true), (120, true), (200, true)],
      50 ≤ p.1 ∧ p.1 < 2 ^ 32 ∧ xor p.2 false = !(xor false false)) ∧
    (readTrace 32 (attach 2 50 true false false 0)
        ([(5, true), (15, false), (25, true), (40, true)] ++
          [(50, true), (120, true), (200, true)])).map report
      = [(false, false, false), (false, false, false), (false, false, false),
         (false, false, false), (true, true, true), (true, false, true),
         (true, false, true)] :=
  ⟨by decide, by decide,
    debounce_once 32 2 50 true false false
      [(5, true), (15, false), (25, true), (40, true)]
      [(50, true), (120, true), (200, true)] (by decide) (by decide)⟩

/-- C7. The invert flag as a negation between two runs: fed the same clock
values and raw levels, the run attached with `invert = true` has after `attach`
and after every `read()` the negated state, and every `read()` returns the
negated value, of the run attached with `invert = false`, while the changed
flag, the last-read time stamp and `lastChange()` agree. -/
theorem invert_negates (w pin W : Nat) (pu r0 : Bool) (t0 : Nat) (l : List Sample) :
    isPressed (attach pin W pu true r0 t0) = (!isPressed (attach pin W pu false r0 t0)) ∧
    (attach pin W pu true r0 t0).m_changed = (attach pin W pu false r0 t0).m_changed ∧
    (attach pin W pu true r0 t0).m_time = (attach pin W pu false r0 t0).m_time ∧
    lastChange (attach pin W pu true r0 t0) = lastChange (attach pin W pu false r0 t0) ∧
    (readTrace w (attach pin W pu true r0 t0) l).map view
      = (readTrace w (attach pin W pu false r0 t0) l).map viewNegated := by
  have hm : Mirrored (attach pin W pu true r0 t0) (attach pin W pu false r0 t0) := by
    rw [attach_fields, attach_fields]
    exact ⟨rfl, rfl, by cases r0 <;> rfl, rfl, rfl⟩
  refine ⟨?_, ?_, ?_, ?_, readTrace_mirrored w _ _ l hm⟩
  · rw [attach_fields, attach_fields]; cases r0 <;> rfl
  · rw [attach_fields, attach_fields]
  · rw [attach_fields, attach_fields]
  · rw [attach_fields, attach_fields]; rfl

/-! ## Elapsed time -/

/-- C8. Wraparound safety: with last-change time stamp `T` and a true elapsed
time `d < 2 ^ w`, at the clock value `(T + d) mod 2 ^ w` the unsigned difference
`now - T` is `d`, so `read()` suppresses the sample when `d` is below the
debounce window and accepts it otherwise; and when that read leaves the state
pressed without accepting a change, `pressedFor(ms)` holds exactly for
`ms ≤ d`.  Nothing is assumed about `T + d < 2 ^ w`. -/
theorem wraparound_elapsed (w : Nat) (s : Button) (d : Nat) (raw : Bool)
    (hd : d < 2 ^ w) :
    usub w ((s.m_lastChange + d) % 2 ^ w) s.m_lastChange = d ∧
    (usub w ((s.m_lastChange + d) % 2 ^ w) s.m_lastChange < s.m_dbTime ↔ d < s.m_dbTime) ∧
    (d < s.m_dbTime →
      read w s ((s.m_lastChange + d) % 2 ^ w) raw
        = (s.m_state,
            { s with m_changed := false, m_time := (s.m_lastChange + d) % 2 ^ w })) ∧
    (s.m_dbTime ≤ d →
      (read w s ((s.m_lastChange + d) % 2 ^ w) raw).2.m_state = observed s raw ∧
      (read w s ((s.m_lastChange + d) % 2 ^ w) raw).2.m_lastState = s.m_state ∧
      (read w s ((s.m_lastChange + d) % 2 ^ w) raw).2.m_changed
        = (observed s raw != s.m_state)) ∧
    ((read w s ((s.m_lastChange + d) % 2 ^ w) raw).2.m_state = true →
      (read w s ((s.m_lastChange + d) % 2 ^ w) raw).2.m_changed = false →
      ∀ ms, pressedFor w (read w s ((s.m_lastChange + d) % 2 ^ w) raw).2 ms = true
        ↔ ms ≤ d) := by
  have hu := usub_add w s.m_lastChange d hd
  refine ⟨hu, by rw [hu], ?_, ?_, ?_⟩
  · intro hlt
    exact read_of_lt w s _ raw (by rw [hu]; exact hlt)
  · intro hle
    rw [read_of_le w s _ raw (by rw [hu]; exact hle)]
    exact ⟨rfl, rfl, rfl⟩
  · intro hst hch ms
    have hq := read_quiet w s ((s.m_lastChange + d) % 2 ^ w) raw hch
    have ht : (read w s ((s.m_lastChange + d) % 2 ^ w) raw).2.m_time
        = (s.m_lastChange + d) % 2 ^ w := by
      simp only [read]
    simp only [pressedFor, hst, ht, hq.2, hu, Bool.true_and, decide_eq_true_eq, ge_iff_le]

/-- A 32-bit clock that wraps between two reads: last change at `2 ^ 32 - 10`,
next read 25 ms later at clock value 15.  With a 50 ms window the released
sample is suppressed, and the button counts as pressed for 25 ms but not for
26 ms. -/
theorem wraparound_elapsed_witness :
    25 < 2 ^ 32 ∧
    2 ^ 32 ≤ (attach 2 50 true false true 4294967286).m_lastChange + 25 ∧
    ((attach 2 50 true false true 4294967286).m_lastChange + 25) % 2 ^ 32 = 15 ∧
    usub 32 15 4294967286 = 25 ∧
    (read 32 (attach 2 50 true false true 4294967286) 15 false).2.m_state = true ∧
    pressedFor 32 (read 32 (attach 2 50 true false true 4294967286) 15 false).2 25 = true ∧
    pressedFor 32 (read 32 (attach 2 50 true false true 4294967286) 15 false).2 26
      = false :=
  have h := wraparound_elapsed 32 (attach 2 50 true false true 4294967286) 25 false
    (by decide)
  ⟨by decide, by decide, by decide, h.1, by decide,
    (h.2.2.2.2 (by decide) (by decide) 25).mpr (by decide),
    Bool.eq_false_iff.mpr (fun hp =>
      absurd ((h.2.2.2.2 (by decide) (by decide) 26).mp hp) (by decide))⟩

/-- C9, the claim as written fails: on a 32-bit clock with a 50 ms window the
read at 100 ms accepts the change to pressed, the next read comes at exactly
150 ms and samples the released level; the window has elapsed, the release is
accepted, and `pressedFor(50)` is false after that read. -/
theorem pressedFor_boundary_counterexample :
    (read 32 (attach 2 50 true false false 0) 100 true).2.m_changed = true ∧
    (read 32 (attach 2 50 true false false 0) 100 true).2.m_state = true ∧
    (read 32 (read 32 (attach 2 50 true false false 0) 100 true).2 (100 + 50) false).2.m_state
      = false ∧
    ¬ (pressedFor 32
          (read 32 (read 32 (attach 2 50 true false false 0) 100 true).2 (100 + 50) false).2
          50 = true ∧
       pressedFor 32
          (read 32 (read 32 (attach 2 50 true false false 0) 100 true).2 (100 + 50) false).2
          (50 + 1) = false) := by
  decide

/-- C9, amended: when a `read()` at clock `T` accepted a change to pressed, the
debounce window `W` is below the largest value of the clock type, so that
`W + 1 < 2 ^ w` is an argument `pressedFor` can receive unwrapped, and the next
`read()` comes at clock `(T + W) mod 2 ^ w` and samples the invert-adjusted
level as pressed, then after that read `pressedFor(W)` is true and
`pressedFor(W + 1)` is false. -/
theorem pressedFor_boundary (w : Nat) (s : Button) (T : Nat) (rT raw2 : Bool)
    (hW : s.m_dbTime + 1 < 2 ^ w)
    (hacc : (read w s T rT).2.m_changed = true)
    (hpr : (read w s T rT).2.m_state = true)
    (hlvl : observed (read w s T rT).2 raw2 = true) :
    pressedFor w (read w (read w s T rT).2 ((T + s.m_dbTime) % 2 ^ w) raw2).2 s.m_dbTime
      = true ∧
    pressedFor w (read w (read w s T rT).2 ((T + s.m_dbTime) % 2 ^ w) raw2).2
      (s.m_dbTime + 1) = false := by
  have hT := (read_changed_lastChange w s T rT hacc).1
  have hdb := read_dbTime w s T rT
  generalize read w s T rT = x at hpr hlvl hT hdb
  have hu : usub w ((T + s.m_dbTime) % 2 ^ w) x.2.m_lastChange = s.m_dbTime := by
    rw [hT]; exact usub_add w T s.m_dbTime (Nat.lt_of_succ_lt hW)
  rw [read_of_le w x.2 _ raw2 (by rw [hu, hdb])]
  simp only [observed] at hlvl
  simp only [pressedFor, hlvl, hpr, bne_self_eq_false, Bool.false_eq_true, if_false, hu,
    Bool.true_and, decide_eq_true_eq, decide_eq_false_iff_not, ge_iff_le, le_refl, true_and]
  omega

/-- The boundary on a 32-bit clock across a wrap: the press is accepted at
`2 ^ 32 - 20`, the next read comes 50 ms later at clock value 30 and still
samples pressed. -/
theorem pressedFor_boundary_witness :
    (attach 2 50 true false false 0).m_dbTime + 1 < 2 ^ 32 ∧
    (read 32 (attach 2 50 true false false 0) 4294967276 true).2.m_changed = true ∧
    (read 32 (attach 2 50 true false false 0) 4294967276 true).2.m_state = true ∧
    (4294967276 + 50) % 2 ^ 32 = 30 ∧
    pressedFor 32
      (read 32 (read 32 (attach 2 50 true false false 0) 4294967276 true).2 30 true).2 50
      = true ∧
    pressedFor 32
      (read 32 (read 32 (attach 2 50 true false false 0) 4294967276 true).2 30 true).2 51
      = false :=
  have h := pressedFor_boundary 32 (attach 2 50 true false false 0) 4294967276 true true
    (by decide) (by decide) (by decide) (by decide)
  ⟨by decide, by decide, by decide, by decide, h.1, h.2⟩

/-- C10. Duration queries use the last poll, with an inclusive bound: in every
state `pressedFor(ms)` is `current && (lastRead - lastChange) mod 2 ^ w ≥ ms` and
`releasedFor(ms)` is `!current && (lastRead - lastChange) mod 2 ^ w ≥ ms`, where
`lastRead` is `m_time`, the clock value of the latest `read()` or of `attach`;
`pressedFor(0)` is `isPressed()`, `releasedFor(0)` is `isReleased()`, and
`pressedFor(ms)` and `releasedFor(ms)` are never both true. -/
theorem duration_queries (w : Nat) (s : Button) (ms : Nat) :
    pressedFor w s ms = pressedFor_spec w s.m_state s.m_time s.m_lastChange ms ∧
    releasedFor w s ms = releasedFor_spec w s.m_state s.m_time s.m_lastChange ms ∧
    (∀ now raw, (read w s now raw).2.m_time = now) ∧
    (∀ pin dbTime pu inv raw t, (attachOn s pin dbTime pu inv raw t).m_time = t) ∧
    pressedFor w s 0 = isPressed s ∧
    releasedFor w s 0 = isReleased s ∧
    (pressedFor w s ms && releasedFor w s ms) = false := by
  have hiff : usub w s.m_time s.m_lastChange ≥ ms ↔
      ((s.m_time : Int) - (s.m_lastChange : Int)) % ((2 ^ w : Nat) : Int) ≥ (ms : Int) := by
    rw [← usub_int]
    exact Int.ofNat_le.symm
  refine ⟨?_, ?_, ?_, ?_, ?_, ?_, ?_⟩
  · simp only [pressedFor, pressedFor_spec, decide_eq_decide.mpr hiff]
  · simp only [releasedFor, releasedFor_spec, decide_eq_decide.mpr hiff]
  · intro now raw
    simp only [read]
  · intro pin dbTime pu inv raw t
    cases inv <;> rfl
  · simp [pressedFor, isPressed]
  · simp [releasedFor, isReleased]
  · cases hs : s.m_state <;> simp [pressedFor, releasedFor, hs]

/-! ## Queries and run invariants -/

/-- C11. Mutual exclusion: in every state, so after `attach` and after any
sequence of reads, `isReleased()` is the negation of `isPressed()`;
`wasPressed()` and `wasReleased()` are never both true, and exactly one of
them is true when the changed flag is set and none when it is clear. -/
theorem queries_exclusive (s : Button) :
    isReleased s = (!isPressed s) ∧
    (wasPressed s && wasReleased s) = false ∧
    (wasPressed s || wasReleased s) = s.m_changed ∧
    xor (wasPressed s) (wasReleased s) = s.m_changed := by
  cases hs : s.m_state <;> cases hc : s.m_changed <;>
    simp [isReleased, isPressed, wasPressed, wasReleased, hs, hc]

/-- C12. `lastChange()` tracks accepted transitions only: after `attach` at clock
`t0` and any sequence of reads, `lastChange()` is the clock value of the most
recent read that reported a change, or `t0` when no read did; one read sets it
to its clock value when it reports a change and leaves it alone otherwise. -/
theorem lastChange_tracks (w pin W : Nat) (pu inv r0 : Bool) (t0 : Nat) (l : List Sample) :
    lastChange (readAll w (attach pin W pu inv r0 t0) l)
      = lastWhere t0
          (List.zip (l.map Prod.fst) (changedFlags w (attach pin W pu inv r0 t0) l)) ∧
    (∀ (s : Button) (now : Nat) (raw : Bool),
      lastChange (read w s now raw).2
        = if (read w s now raw).2.m_changed then now else lastChange s) := by
  have hstep : ∀ (s : Button) (now : Nat) (raw : Bool),
      (read w s now raw).2.m_lastChange
        = if (read w s now raw).2.m_changed then now else s.m_lastChange := by
    intro s now raw
    cases hc : (read w s now raw).2.m_changed
    · simpa using (read_quiet w s now raw hc).2
    · simpa using (read_changed_lastChange w s now raw hc).1
  have hrun : ∀ (l : List Sample) (s : Button),
      (readAll w s l).m_lastChange
        = lastWhere s.m_lastChange (List.zip (l.map Prod.fst) (changedFlags w s l)) := by
    intro l
    induction l with
    | nil => intro s; rfl
    | cons p ps ih =>
      intro s
      simp only [readAll, changedFlags, readTrace, List.map_cons, List.zip_cons_cons,
        lastWhere]
      rw [ih (read w s p.1 p.2).2, hstep s p.1 p.2]
      rfl
  refine ⟨?_, hstep⟩
  have h := hrun l (attach pin W pu inv r0 t0)
  rw [attach_fields] at h ⊢
  exact h

/-- C13. Queries are pure: a call of `isPressed()`, `isReleased()`,
`wasPressed()`, `wasReleased()`, `pressedFor(x)`, `releasedFor(x)` or
`lastChange()` hands the object back with every member unchanged, and takes
neither a level nor a clock value; so in any sequence of query calls with no
`read()` in between the object stays the same and every call returns what the
same query returns on the object the sequence started from. -/
theorem queries_pure (w : Nat) (s : Button) (qs : List Query) :
    (∀ q, (call w s q).2 = s) ∧
    (callAll w s qs).2 = s ∧
    (callAll w s qs).1 = qs.map (fun q => (call w s q).1) := by
  have hq : ∀ q, (call w s q).2 = s := by
    intro q
    cases q <;> rfl
  refine ⟨hq, ?_⟩
  induction qs with
  | nil => exact ⟨rfl, rfl⟩
  | cons q qs ih =>
    simp only [callAll, hq q, List.map_cons, ih.1, ih.2, and_self]

/-- C14. The logical state reflects only accepted samples: after `attach` and
any sequence of reads, the state is the invert-adjusted level sampled by the
most recent read whose debounce window had elapsed, or the one sampled by
`attach` when there was no such read; one read inside the window keeps the
state, whatever it samples. -/
theorem state_reflects_accepted (w pin W : Nat) (pu inv r0 : Bool) (t0 : Nat)
    (l : List Sample) :
    isPressed (readAll w (attach pin W pu inv r0 t0) l)
      = lastWhere (xor r0 inv)
          (List.zip (l.map (fun p => xor p.2 inv))
            (elapsedFlags w (attach pin W pu inv r0 t0) l)) ∧
    (∀ (s : Button) (now : Nat) (raw : Bool),
      isPressed (read w s now raw).2
        = if s.m_dbTime ≤ usub w now s.m_lastChange then observed s raw else isPressed s) := by
  refine ⟨?_, fun s now raw => (read_states w s now raw).1⟩
  have h := readAll_state w (attach pin W pu inv r0 t0) l
  rw [isPressed, h]
  simp only [attach_fields]

/-- C15, the claim as written fails: with a 50 ms window the read at 100 ms
accepts the change from released to pressed, and the read at 200 ms finds the
window elapsed and the level still pressed.  It reports no change, yet it has
copied the current state into the previous state: the previous state is
pressed, neither the negation of the current state nor the state held before
the accepted change. -/
theorem lastState_counterexample :
    changedFlags 32 (attach 2 50 true false false 0) [(100, true), (200, true)]
      = [true, false] ∧
    (attach 2 50 true false false 0).m_state = false ∧
    (readAll 32 (attach 2 50 true false false 0) [(100, true), (200, true)]).m_state
      = true ∧
    (readAll 32 (attach 2 50 true false false 0) [(100, true), (200, true)]).m_lastState
      = true := by
  decide

/-- C15, amended: one read copies the current state into the previous state
exactly when it finds the debounce window elapsed, whether or not the state
then changes.  So in a run of `attach` and reads, once a read has accepted a
change and every read after it has found the window still open, the previous
state is the state held just before that change, the negation of the current
state. -/
theorem lastState_meaning (w pin W : Nat) (pu inv r0 : Bool) (t0 : Nat)
    (pre : List Sample) (T : Nat) (rT : Bool) (mid : List Sample)
    (hacc : (read w (readAll w (attach pin W pu inv r0 t0) pre) T rT).2.m_changed = true)
    (hmid : ∀ e ∈ elapsedFlags w
        (read w (readAll w (attach pin W pu inv r0 t0) pre) T rT).2 mid, e = false) :
    (readAll w (attach pin W pu inv r0 t0) (pre ++ (T, rT) :: mid)).m_lastState
      = (readAll w (attach pin W pu inv r0 t0) pre).m_state ∧
    (readAll w (attach pin W pu inv r0 t0) (pre ++ (T, rT) :: mid)).m_lastState
      = (!(readAll w (attach pin W pu inv r0 t0) (pre ++ (T, rT) :: mid)).m_state) ∧
    (∀ (s : Button) (now : Nat) (raw : Bool),
      (read w s now raw).2.m_lastState
        = if s.m_dbTime ≤ usub w now s.m_lastChange then s.m_state else s.m_lastState) := by
  have hrun : readAll w (attach pin W pu inv r0 t0) (pre ++ (T, rT) :: mid)
      = readAll w (read w (readAll w (attach pin W pu inv r0 t0) pre) T rT).2 mid := by
    rw [readAll_append]; rfl
  rw [hrun]
  generalize readAll w (attach pin W pu inv r0 t0) pre = s1 at hacc hmid ⊢
  have hin := readAll_inside w (read w s1 T rT).2 mid hmid
  have hle := (read_changed_lastChange w s1 T rT hacc).2
  have hrd := read_of_le w s1 T rT hle
  have hne : (xor rT s1.m_invert != s1.m_state) = true := by
    rw [hrd] at hacc; exact hacc
  have hls : (read w s1 T rT).2.m_lastState = s1.m_state := by rw [hrd]
  have hst : (read w s1 T rT).2.m_state = xor rT s1.m_invert := by rw [hrd]
  refine ⟨hin.2.trans hls, ?_, fun s now raw => (read_states w s now raw).2⟩
  rw [hin.2, hin.1, hls, hst]
  revert hne
  cases xor rT s1.m_invert <;> cases s1.m_state <;> simp

/-- The previous state on a 32-bit clock with a 50 ms window: after the press
accepted at 100 ms and the bouncing reads at 110 and 120 ms, the previous state
is released, the state held before the press. -/
theorem lastState_meaning_witness :
    (readAll 32 (attach 2 50 true false false 0)
        ([(10, true)] ++ (100, true) :: [(110, false), (120, true)])).m_lastState = false ∧
    (readAll 32 (attach 2 50 true false false 0)
        ([(10, true)] ++ (100, true) :: [(110, false), (120, true)])).m_state = true :=
  have h := lastState_meaning 32 2 50 true false false 0 [(10, true)] 100 true
    [(110, false), (120, true)] (by decide) (by decide)
  ⟨h.1.trans (by decide), by decide⟩

/-- C16. A zero debounce window disables filtering: for a button attached with
`dbTime = 0`, after any sequence of reads, a read at any clock value takes the
acceptance branch; it returns the raw level XOR the invert flag and reports a
change exactly when that value differs from the state before the call. -/
theorem zero_window_accepts (w pin : Nat) (pu inv r0 : Bool) (t0 : Nat) (l : List Sample)
    (now : Nat) (raw : Bool) :
    (readAll w (attach pin 0 pu inv r0 t0) l).m_dbTime
      ≤ usub w now (readAll w (attach pin 0 pu inv r0 t0) l).m_lastChange ∧
    (read w (readAll w (attach pin 0 pu inv r0 t0) l) now raw).1 = xor raw inv ∧
    (read w (readAll w (attach pin 0 pu inv r0 t0) l) now raw).2.m_state = xor raw inv ∧
    (read w (readAll w (attach pin 0 pu inv r0 t0) l) now raw).2.m_lastState
      = (readAll w (attach pin 0 pu inv r0 t0) l).m_state ∧
    (read w (readAll w (attach pin 0 pu inv r0 t0) l) now raw).2.m_changed
      = (xor raw inv != (readAll w (attach pin 0 pu inv r0 t0) l).m_state) := by
  have hdb : (readAll w (attach pin 0 pu inv r0 t0) l).m_dbTime = 0 := by
    rw [readAll_dbTime, attach_fields]
  have hiv : (readAll w (attach pin 0 pu inv r0 t0) l).m_invert = inv := by
    rw [readAll_invert, attach_fields]
  have hle : (readAll w (attach pin 0 pu inv r0 t0) l).m_dbTime
      ≤ usub w now (readAll w (attach pin 0 pu inv r0 t0) l).m_lastChange := by
    rw [hdb]; exact Nat.zero_le _
  refine ⟨hle, ?_⟩
  rw [read_of_le w _ now raw hle, hiv]
  exact ⟨rfl, rfl, rfl, rfl⟩

/-- C17. Time-stamp ordering: in a run of `attach` and reads whose clock values
never decrease and stay below `2 ^ w`, after `attach` and after every read the
last-change time stamp is at most the last-read time stamp, and the unsigned
difference `m_time - m_lastChange` the duration queries use is the plain
difference, the time since the last accepted change. -/
theorem timestamps_ordered (w pin W : Nat) (pu inv r0 : Bool) (t0 : Nat) (l : List Sample)
    (ht0 : t0 < 2 ^ w)
    (hchain : List.Chain (fun a b => a ≤ b) t0 (l.map Prod.fst))
    (hlt : ∀ p ∈ l, p.1 < 2 ^ w) :
    ((attach pin W pu inv r0 t0).m_lastChange ≤ (attach pin W pu inv r0 t0).m_time ∧
      usub w (attach pin W pu inv r0 t0).m_time (attach pin W pu inv r0 t0).m_lastChange
        = (attach pin W pu inv r0 t0).m_time - (attach pin W pu inv r0 t0).m_lastChange) ∧
    (∀ x ∈ readTrace w (attach pin W pu inv r0 t0) l,
      x.2.m_lastChange ≤ x.2.m_time ∧
      usub w x.2.m_time x.2.m_lastChange = x.2.m_time - x.2.m_lastChange) := by
  have h0 : (attach pin W pu inv r0 t0).m_lastChange ≤ (attach pin W pu inv r0 t0).m_time := by
    rw [attach_fields]
  have ht : (attach pin W pu inv r0 t0).m_time = t0 := by rw [attach_fields]
  refine ⟨⟨h0, usub_of_le w _ _ h0 (by rw [ht]; exact ht0)⟩, ?_⟩
  exact readTrace_ordered w _ l h0 (by rw [ht]; exact hchain) hlt

/-- A run on a 32-bit clock with rising clock values: after the last read the
last change (at 60 ms) is before the last read (at 90 ms) and the unsigned
difference is 30 ms. -/
theorem timestamps_ordered_witness :
    List.Chain (fun a b => a ≤ b) 0
      ([((10 : Nat), true), (60, true), (70, false), (90, true)].map Prod.fst) ∧
    (readAll 32 (attach 2 50 true false false 0)
      [(10, true), (60, true), (70, false), (90, true)]).m_lastChange = 60 ∧
    (readAll 32 (attach 2 50 true false false 0)
      [(10, true), (60, true), (70, false), (90, true)]).m_time = 90 ∧
    (∀ x ∈ readTrace 32 (attach 2 50 true false false 0)
        [(10, true), (60, true), (70, false), (90, true)],
      x.2.m_lastChange ≤ x.2.m_time ∧
      usub 32 x.2.m_time x.2.m_lastChange = x.2.m_time - x.2.m_lastChange) :=
  ⟨by simp, by decide, by decide,
    (timestamps_ordered 32 2 50 true false false 0
      [(10, true), (60, true), (70, false), (90, true)]
      (by decide) (by simp) (by decide)).2⟩

/-- C18, the claim as written fails: on a 32-bit clock the button is attached
pressed at `2 ^ 32 - 10` and read pressed at clock value 5, after the counter
wrapped, so `pressedFor(15)` is true.  The next read, at `2 ^ 32 - 5`, is not
earlier than the last read and again samples pressed, but `2 ^ 32 + 5` ms after
the last change the unsigned difference is 5, and `pressedFor(15)` is
false. -/
theorem longpress_counterexample :
    pressedFor 32 (read 32 (attach 2 50 true false true 4294967286) 5 true).2 15 = true ∧
    (read 32 (attach 2 50 true false true 4294967286) 5 true).2.m_time ≤ 4294967291 ∧
    4294967291 < 2 ^ 32 ∧
    observed (read 32 (attach 2 50 true false true 4294967286) 5 true).2 true = true ∧
    pressedFor 32
      (read 32 (read 32 (attach 2 50 true false true 4294967286) 5 true).2
        4294967291 true).2 15 = false := by
  decide

/-- C18, amended: in a state where `pressedFor(x)` is true, a read at a clock
value `now` not earlier than the last-read time stamp that samples the
invert-adjusted level as pressed leaves `pressedFor(x)` true, in either branch
of `read()`, provided the time since the last change still fits the clock
type: `(m_time - m_lastChange) mod 2 ^ w + (now - m_time) < 2 ^ w`.  The same
holds for `releasedFor(x)` and a level sampled as released. -/
theorem longpress_persists (w : Nat) (s : Button) (x now : Nat) (raw : Bool)
    (hnow : s.m_time ≤ now)
    (hfit : usub w s.m_time s.m_lastChange + (now - s.m_time) < 2 ^ w) :
    (pressedFor w s x = true → observed s raw = true →
      pressedFor w (read w s now raw).2 x = true) ∧
    (releasedFor w s x = true → observed s raw = false →
      releasedFor w (read w s now raw).2 x = true) := by
  have hu : usub w now s.m_lastChange
      = usub w s.m_time s.m_lastChange + (now - s.m_time) := by
    rw [usub_later w s.m_time now s.m_lastChange hnow, Nat.mod_eq_of_lt hfit]
  have key : observed s raw = s.m_state →
      (read w s now raw).2.m_state = s.m_state ∧
      usub w s.m_time s.m_lastChange
        ≤ usub w (read w s now raw).2.m_time (read w s now raw).2.m_lastChange := by
    intro hobs
    have hsame := read_same w s now raw hobs
    rw [read_time, (read_quiet w s now raw hsame.2).2, hu]
    exact ⟨hsame.1, Nat.le_add_right _ _⟩
  constructor
  · intro hp hobs
    simp only [pressedFor, Bool.and_eq_true, decide_eq_true_eq] at hp ⊢
    have hk := key (hobs.trans hp.1.symm)
    exact ⟨hk.1.trans hp.1, le_trans hp.2 hk.2⟩
  · intro hp hobs
    simp only [releasedFor, Bool.and_eq_true, Bool.not_eq_true', decide_eq_true_eq] at hp ⊢
    have hk := key (hobs.trans hp.1.symm)
    exact ⟨hk.1.trans hp.1, le_trans hp.2 hk.2⟩

/-- A long press on a 32-bit clock with a 50 ms window: pressed since 100 ms
and last read at 400 ms, the button is `pressedFor(300)`; the read at 500 ms
samples pressed and it still is.  The same for a release across a wrap of the
counter: released since `2 ^ 32 - 10`, last read at 5, next read at 40. -/
theorem longpress_persists_witness :
    pressedFor 32 (readAll 32 (attach 2 50 true false false 0)
        [(100, true), (400, true)]) 300 = true ∧
    pressedFor 32 (read 32 (readAll 32 (attach 2 50 true false false 0)
        [(100, true), (400, true)]) 500 true).2 300 = true ∧
    releasedFor 32 (read 32 (attach 2 50 true false false 4294967286) 5 false).2 15
      = true ∧
    releasedFor 32 (read 32 (read 32 (attach 2 50 true false false 4294967286) 5 false).2
        40 false).2 15 = true :=
  ⟨by decide,
    (longpress_persists 32 (readAll 32 (attach 2 50 true false false 0)
        [(100, true), (400, true)]) 300 500 true (by decide) (by decide)).1
      (by decide) (by decide),
    by decide,
    (longpress_persists 32 (read 32 (attach 2 50 true false false 4294967286) 5 false).2
        15 40 false (by decide) (by decide)).2 (by decide) (by decide)⟩

end DCC_Button
